import Mathlib

/-!
Verification of the wikimash bidirectional-search core (src/wikimash.js).

The development shallowly embeds the three core components:
* `LinkFetcher` (spec: BatchManager) — `addArticles`, `fetch`,
  `markLastBatchUndesirable`, `markAllBatchesUndesirable`, `complete`,
  `noDesirableBatches`;
* `ArticleTree` (spec: ExplorationTree) — `explore`, `diversify`,
  `pathToRoot`, `containsPage`;
* the orchestrator pieces of `wikigameSolve` — collision choice and path
  reconstruction.

Remote responses are inputs: a fetch is modelled as one atomic state
transition consuming a `FetchResponse` (the promise machinery that
serializes concurrent callers is not modelled). JS objects used as
string-keyed dictionaries are modelled as association lists in insertion
order (`alookup` is property lookup, `objSet` is property assignment:
overwrite in place when the key exists, append otherwise), matching the
enumeration order `Object.keys` delivers for such objects.
-/

/-- Article titles are opaque server-normalized strings. -/
abbrev Title := String

/-- Property lookup on a string-keyed JS object modelled as an association
list in insertion order. -/
def alookup {β : Type} : List (Title × β) → Title → Option β
  | [], _ => none
  | (k, v) :: m, x => if x = k then some v else alookup m x

/-- Property assignment `obj[k] = v` on a string-keyed JS object:
overwrite when the key exists, append a new key otherwise. -/
def objSet {β : Type} (m : List (Title × β)) (k : Title) (v : β) : List (Title × β) :=
  if (alookup m k).isSome then
    m.map (fun kv => if kv.1 = k then (k, v) else kv)
  else
    m ++ [(k, v)]

/-- Characters that `encodeURIComponent` leaves unescaped:
`A–Z a–z 0–9 - _ . ! ~ * ' ( )`. -/
def isUnreservedChar (c : Char) : Bool :=
  (decide ('A' ≤ c) && decide (c ≤ 'Z')) ||
  (decide ('a' ≤ c) && decide (c ≤ 'z')) ||
  (decide ('0' ≤ c) && decide (c ≤ '9')) ||
  c == '-' || c == '_' || c == '.' || c == '!' || c == '~' || c == '*' ||
  c == Char.ofNat 39 || c == '(' || c == ')'

/-- `encodeURIComponent(s).length`: each unreserved character contributes 1,
every other character contributes 3 characters (`%XX`) per UTF-8 byte. -/
def encodedLength (s : String) : Nat :=
  (s.data.map (fun c => if isUnreservedChar c then 1 else 3 * c.utf8Size)).sum

/-- The string `"|" ++ t₁ ++ "|" ++ t₂ ++ ⋯` appended after a batch's first
title when building `titlesParam`. -/
def joinPipe : List Title → String
  | [] => ""
  | t :: ts => "|" ++ t ++ joinPipe ts

/-- A batch of titles queried together (`batch` objects built by
`LinkFetcher.prototype.addArticles`).  The source pushes every title except
the first into `batch.articles`; all titles are joined in `titlesParam`. -/
structure Batch where
  articles : List Title
  titlesParam : String
  continueParam : Option String
deriving DecidableEq

/-- The default value `List.getD` needs; never reached on the inputs the
theorems evaluate. -/
def emptyBatch : Batch := { articles := [], titlesParam := "", continueParam := none }

/-- The inner packing loop of `addArticles`
(`for (i = 1; i < titleCount && encodedParamLength < 1500; i++)`).
`i` counts titles taken so far including the batch's first title, `e` is the
running encoded length, `p` the `titlesParam` accumulator and `acc` the
reversed `batch.articles` accumulator.  Returns
(`batch.articles`, `batch.titlesParam`, remaining input). -/
def packLoop (i e : Nat) (p : String) (acc : List Title) :
    List Title → List Title × String × List Title
  | [] => (acc.reverse, p, [])
  | t :: ts =>
    if i < 50 ∧ e < 1500 then
      packLoop (i + 1) (e + encodedLength ("|" ++ t)) (p ++ "|" ++ t) (t :: acc) ts
    else
      (acc.reverse, p, t :: ts)

/-- The outer `while (articles.length != 0)` loop of `addArticles`,
fuelled by the input length: every iteration consumes at least the first
remaining title, so `input.length` iterations always suffice. -/
def packBatchesFuel : Nat → List Title → List Batch
  | 0, _ => []
  | _ + 1, [] => []
  | fuel + 1, a0 :: rest =>
    let r := packLoop 1 (encodedLength a0) a0 [] rest
    { articles := r.1, titlesParam := r.2.1, continueParam := none } ::
      packBatchesFuel fuel r.2.2

/-- `addArticles` viewed as a pure function from the input title list to the
list of new batches it creates. -/
def packBatches (l : List Title) : List Batch :=
  packBatchesFuel l.length l

/-- `LinkFetcher` state (spec: BatchManager): active batch rotation, cyclic
round-robin index, demotion candidate, undesirable-batch stack.  The
`direction` field only routes to `getLinks` vs `getBacklinks` and the
`linkPromise` slot only serializes concurrent callers; neither affects the
state transitions modelled here. -/
structure LinkFetcher where
  batches : List Batch
  batchIndex : Nat
  lastBatchIndex : Option Nat
  undesirableBatchStack : List Batch
deriving DecidableEq

/-- A freshly constructed `LinkFetcher`. -/
def LinkFetcher.init : LinkFetcher :=
  { batches := [], batchIndex := 0, lastBatchIndex := none, undesirableBatchStack := [] }

/-- `LinkFetcher.prototype.addArticles`: append the newly packed batches to
the active rotation. -/
def addArticlesF (s : LinkFetcher) (articles : List Title) : LinkFetcher :=
  { s with batches := s.batches ++ packBatches articles }

/-- `LinkFetcher.prototype.complete`. -/
def LinkFetcher.complete (s : LinkFetcher) : Bool :=
  s.batches.isEmpty && s.undesirableBatchStack.isEmpty

/-- `LinkFetcher.prototype.noDesirableBatches`. -/
def LinkFetcher.noDesirableBatches (s : LinkFetcher) : Bool :=
  s.batches.isEmpty

/-- The batch-selection phase of `LinkFetcher.prototype.fetch`: round-robin
on the active rotation if it is non-empty, otherwise pop the top of the
undesirable-batch stack (a JS array pops at the back) into the rotation.
Returns the post-selection state and the selected index. -/
def fetchSelect (s : LinkFetcher) : LinkFetcher × Nat :=
  if s.batches.length > 0 then
    ({ s with batchIndex := (s.batchIndex + 1) % s.batches.length },
     (s.batchIndex + 1) % s.batches.length)
  else
    match s.undesirableBatchStack.getLast? with
    | some b =>
      ({ s with batches := [b],
                undesirableBatchStack := s.undesirableBatchStack.dropLast,
                batchIndex := 0 }, 0)
    | none => (s, 0)

/-- The arguments `fetch` passes to `mediaWikiAPI.getLinks` /
`getBacklinks` for the selected batch. -/
structure FetchRequest where
  titlesParam : String
  continueParam : Option String
deriving DecidableEq

/-- One page of remote results: the link map (a JS object in insertion
order) and the optional pagination cursor. -/
structure FetchResponse where
  linkMap : List (Title × List Title)
  continueParam : Option String
deriving DecidableEq

/-- The `forEach` in `fetch` that, once a batch's cursor is exhausted,
synthesizes an empty link list for every title of `batch.articles` absent
from the returned link map. -/
def synthesize (lm : List (Title × List Title)) (articles : List Title) :
    List (Title × List Title) :=
  articles.foldl (fun m a => if (alookup m a).isSome then m else m ++ [(a, [])]) lm

/-- `LinkFetcher.prototype.fetch` as one atomic transition consuming the
remote response.  Result: the request issued (`none` when `complete()`
short-circuits with an empty map and no remote call), the new state, and
the link map handed to the caller. -/
def fetchStep (s : LinkFetcher) (resp : FetchResponse) :
    Option FetchRequest × LinkFetcher × List (Title × List Title) :=
  if s.complete then (none, s, [])
  else
    let sel := fetchSelect s
    let b := sel.1.batches.getD sel.2 emptyBatch
    let req : FetchRequest := { titlesParam := b.titlesParam, continueParam := b.continueParam }
    match resp.continueParam with
    | some c =>
      (some req,
       { sel.1 with
           batches := sel.1.batches.set sel.2 { b with continueParam := some c },
           lastBatchIndex := some sel.2 },
       resp.linkMap)
    | none =>
      (some req,
       { sel.1 with
           batches := sel.1.batches.eraseIdx sel.2,
           lastBatchIndex := none },
       synthesize resp.linkMap b.articles)

/-- `LinkFetcher.prototype.markLastBatchUndesirable`: move the demotion
candidate, if any, from the rotation to the undesirable stack. -/
def markLastBatchUndesirable (s : LinkFetcher) : LinkFetcher :=
  match s.lastBatchIndex with
  | none => s
  | some i =>
    match s.batches.get? i with
    | some b =>
      { s with batches := s.batches.eraseIdx i,
               undesirableBatchStack := s.undesirableBatchStack ++ [b],
               lastBatchIndex := none }
    | none => { s with lastBatchIndex := none }

/-- `LinkFetcher.prototype.markAllBatchesUndesirable`. -/
def markAllBatchesUndesirable (s : LinkFetcher) : LinkFetcher :=
  { s with undesirableBatchStack := s.undesirableBatchStack ++ s.batches,
           batches := [],
           lastBatchIndex := none }

/-- The sentinel value the root title maps to in `treeObj`
(`this.treeObj[rootPageTitle] = "_root"`). -/
def rootSentinel : Title := "_root"

/-- `ArticleTree` state (spec: ExplorationTree).  `fringeSize` is a plain JS
number that is also decremented, hence `Int`.  The `direction` field and the
`explorePromise` serialization slot are omitted as in `LinkFetcher`. -/
structure ArticleTree where
  treeObj : List (Title × Title)
  fringe : List Title
  fringeSize : Int
  depthMap : List (Title × Nat)
  linkFetcher : LinkFetcher
  toExplore : List Title
  size : Nat
  layerSizes : List Nat
  consecutiveUndesirableBatches : Nat
deriving DecidableEq

/-- The `ArticleTree` constructor. -/
def ArticleTree.init (rootPageTitle : Title) : ArticleTree :=
  { treeObj := [(rootPageTitle, rootSentinel)],
    fringe := [rootPageTitle],
    fringeSize := 1,
    depthMap := [(rootPageTitle, 0)],
    linkFetcher := addArticlesF LinkFetcher.init [rootPageTitle],
    toExplore := [],
    size := 1,
    layerSizes := [1],
    consecutiveUndesirableBatches := 0 }

/-- `ArticleTree.prototype.containsPage`: O(1) membership in `treeObj`. -/
def ArticleTree.containsPage (t : ArticleTree) (title : Title) : Bool :=
  (alookup t.treeObj title).isSome

/-- `ArticleTree.prototype.diversify`: re-batch every queued fringe title
and clear the queue. -/
def ArticleTree.diversify (t : ArticleTree) : ArticleTree :=
  { t with linkFetcher := addArticlesF t.linkFetcher t.toExplore,
           toExplore := [] }

/-- The `while (this.treeObj[title] != "_root")` walk of `pathToRoot`,
fuelled: each step pushes one ancestor, and under the tree invariant
`depth title` steps occur, so any fuel of at least `treeObj.length`
suffices.  A missing parent pointer (JS would chase `undefined` forever)
stops the walk; it is unreachable under the invariant. -/
def pathToRootLoop (m : List (Title × Title)) : Nat → Title → List Title
  | 0, _ => []
  | fuel + 1, title =>
    match alookup m title with
    | some p => if p = rootSentinel then [] else p :: pathToRootLoop m fuel p
    | none => []

/-- `ArticleTree.prototype.pathToRoot`: `none` models the
`"title is not in the article tree."` throw (spec: InvalidTitle). -/
def ArticleTree.pathToRoot (t : ArticleTree) (title : Title) : Option (List Title) :=
  if t.containsPage title then
    some (pathToRootLoop t.treeObj t.treeObj.length title)
  else
    none

/-- `while (self.layerSizes.length <= childDepth) self.layerSizes.push(0);
self.layerSizes[childDepth] += 1;` -/
def bumpLayer (l : List Nat) (d : Nat) : List Nat :=
  let l2 := l ++ List.replicate (d + 1 - l.length) 0
  l2.set d (l2.getD d 0 + 1)

/-- The body of the inner `childTitles.forEach` of `explore`: insert one new
child below `p`.  The source computes `self.depthMap[parentTitle] + 1`; a
parent absent from the tree would give NaN in JS, which never happens for
well-formed link maps (every queried parent is a tree member), so the
lookup default is irrelevant under the invariant. -/
def insertChild (acc : ArticleTree × List Title) (p c : Title) : ArticleTree × List Title :=
  let t := acc.1
  let d := (alookup t.depthMap p).getD 0 + 1
  ({ t with
      treeObj := objSet t.treeObj c p,
      fringe := if t.fringe.contains c then t.fringe else t.fringe ++ [c],
      depthMap := objSet t.depthMap c d,
      toExplore := t.toExplore ++ [c],
      layerSizes := bumpLayer t.layerSizes d },
   acc.2 ++ [c])

/-- The body of the outer `parentTitles.forEach` of `explore`: drop the
parent from the fringe, filter out children already present anywhere in the
tree, then insert the remaining children in order. -/
def processParent (acc : ArticleTree × List Title) (p : Title) (children : List Title) :
    ArticleTree × List Title :=
  let t := acc.1
  let t1 := if t.fringe.contains p
            then { t with fringe := t.fringe.erase p, fringeSize := t.fringeSize - 1 }
            else t
  let filtered := children.filter (fun c => !(t1.containsPage c))
  filtered.foldl (fun a c => insertChild a p c) (t1, acc.2)

/-- The response-processing part of `explore` (lines 971–1001 of the
source): fold `processParent` over the link-map entries in insertion order,
accumulating the newly inserted titles. -/
def exploreUpdate (t : ArticleTree) (lm : List (Title × List Title)) :
    ArticleTree × List Title :=
  lm.foldl (fun a pc => processParent a pc.1 pc.2) (t, [])

/-- The yield policy at the end of `explore`: fewer than 10 new titles
demotes the last-fetched batch and bumps the consecutive-low-yield counter;
on reaching 4 the counter resets and the whole rotation is parked; 10 or
more new titles reset the counter. -/
def yieldPolicy (t : ArticleTree) (newCount : Nat) : ArticleTree :=
  if newCount < 10 then
    let f1 := markLastBatchUndesirable t.linkFetcher
    let c1 := t.consecutiveUndesirableBatches + 1
    if 4 ≤ c1 then
      { t with linkFetcher := markAllBatchesUndesirable f1,
               consecutiveUndesirableBatches := 0 }
    else
      { t with linkFetcher := f1, consecutiveUndesirableBatches := c1 }
  else
    { t with consecutiveUndesirableBatches := 0 }

/-- The successful path of `explore` after the diversify/dead-end guards:
fetch, process the response, apply the yield policy and bump
`size`/`fringeSize`.  Returns the new state and the newly inserted
titles. -/
def exploreCore (t : ArticleTree) (resp : FetchResponse) : ArticleTree × List Title :=
  let fr := fetchStep t.linkFetcher resp
  let up := exploreUpdate { t with linkFetcher := fr.2.1 } fr.2.2
  let t1 := yieldPolicy up.1 up.2.length
  ({ t1 with size := t1.size + up.2.length,
             fringeSize := t1.fringeSize + up.2.length }, up.2)

/-- `ArticleTree.prototype.explore` as one atomic transition consuming the
remote response: diversify when no desirable batches remain, fail with the
dead-end error when the fetcher is complete, otherwise run `exploreCore`. -/
def exploreStep (t0 : ArticleTree) (resp : FetchResponse) :
    Except String (ArticleTree × List Title) :=
  let t := if t0.linkFetcher.noDesirableBatches then t0.diversify else t0
  if t.linkFetcher.complete then
    Except.error "Ran into a dead end while exloring article tree"
  else
    Except.ok (exploreCore t resp)

/-- Stands in for `Number.MAX_VALUE` (≈ 1.8·10³⁰⁸ < 2¹⁰²⁴), the initial
`bestCollisionDistance`; path lengths are bounded by the tree size and
never approach it. -/
def numberMaxValue : Nat := 2 ^ 1024

/-- The collision choice of `wikigameSolve` (lines 1528–1536): fold over the
step's newly inserted titles; for each title present in the opposite tree
compare its total path length against `bestCollisionDistance` — which the
source never reassigns — and record it as the collision when smaller.  The
`getD []` on `pathToRoot` is irrelevant on the inputs considered: both
titles lie in both trees, where the JS call cannot throw. -/
def chooseCollision (forwardTree backwardTree compareTree : ArticleTree)
    (newArticles : List Title) : Option Title :=
  (newArticles.foldl
    (fun st a =>
      if compareTree.containsPage a then
        let d := ((forwardTree.pathToRoot a).getD []).length +
                 ((backwardTree.pathToRoot a).getD []).length
        if d < st.2 then (some a, st.2) else st
      else st)
    ((none : Option Title), numberMaxValue)).1

/-- Path reconstruction of `wikigameSolve` (lines 1551–1553):
`reverse(forward.pathToRoot(c)) ++ [c] ++ backward.pathToRoot(c)`;
`none` models a `pathToRoot` throw. -/
def reconstructPath (forwardTree backwardTree : ArticleTree) (collision : Title) :
    Option (List Title) :=
  match forwardTree.pathToRoot collision with
  | none => none
  | some pf =>
    match backwardTree.pathToRoot collision with
    | none => none
    | some pb => some (pf.reverse ++ [collision] ++ pb)

/-! ### Basic lemmas about the JS-object model -/

theorem alookup_append {β : Type} (m n : List (Title × β)) (x : Title) :
    alookup (m ++ n) x = ((alookup m x).rec (alookup n x) (fun v => some v)) := by
  induction m with
  | nil => simp [alookup]
  | cons kv m ih =>
    obtain ⟨k, v⟩ := kv
    by_cases h : x = k <;> simp [alookup, h, ih]

theorem alookup_append_left {β : Type} {m : List (Title × β)} {x : Title} {v : β}
    (h : alookup m x = some v) (n : List (Title × β)) :
    alookup (m ++ n) x = some v := by
  rw [alookup_append, h]

theorem alookup_append_right {β : Type} {m : List (Title × β)} {x : Title}
    (h : alookup m x = none) (n : List (Title × β)) :
    alookup (m ++ n) x = alookup n x := by
  rw [alookup_append, h]

theorem mapSet_alookup_self {β : Type} (k : Title) (v : β) (m : List (Title × β))
    (h : (alookup m k).isSome) :
    alookup (m.map (fun kv => if kv.1 = k then (k, v) else kv)) k = some v := by
  induction m with
  | nil => simp [alookup] at h
  | cons kv m ih =>
    obtain ⟨k', v'⟩ := kv
    simp only [List.map_cons]
    by_cases hk : k' = k
    · subst hk
      rw [if_pos rfl]
      simp [alookup]
    · rw [if_neg hk]
      have hke : k ≠ k' := fun he => hk he.symm
      have h' : (alookup m k).isSome := by
        simpa [alookup, if_neg hke] using h
      simp [alookup, if_neg hke, ih h']

theorem mapSet_alookup_ne {β : Type} (k : Title) (v : β) (x : Title) (hx : x ≠ k)
    (m : List (Title × β)) :
    alookup (m.map (fun kv => if kv.1 = k then (k, v) else kv)) x = alookup m x := by
  induction m with
  | nil => rfl
  | cons kv m ih =>
    obtain ⟨k', v'⟩ := kv
    simp only [List.map_cons]
    by_cases hk : k' = k
    · subst hk
      rw [if_pos rfl]
      simp [alookup, if_neg hx, ih]
    · rw [if_neg hk]
      by_cases hxk : x = k'
      · simp [alookup, hxk]
      · simp [alookup, hxk, ih]

theorem alookup_objSet_self {β : Type} (m : List (Title × β)) (k : Title) (v : β) :
    alookup (objSet m k v) k = some v := by
  unfold objSet
  split
  · exact mapSet_alookup_self k v m (by assumption)
  · rename_i h
    have hnone : alookup m k = none := by
      cases hm : alookup m k with
      | none => rfl
      | some w => rw [hm] at h; simp at h
    rw [alookup_append_right hnone]
    simp [alookup]

theorem alookup_objSet_ne {β : Type} (m : List (Title × β)) (k : Title) (v : β)
    (x : Title) (hx : x ≠ k) : alookup (objSet m k v) x = alookup m x := by
  unfold objSet
  split
  · exact mapSet_alookup_ne k v x hx m
  · cases hm : alookup m x with
    | some w => exact alookup_append_left hm _
    | none =>
      rw [alookup_append_right hm]
      simp [alookup, hx]

/-- Overwriting a key with the value it already has preserves every lookup. -/
theorem alookup_objSet_same {β : Type} (m : List (Title × β)) (k : Title) (v : β)
    (h : alookup m k = some v) (x : Title) :
    alookup (objSet m k v) x = alookup m x := by
  by_cases hx : x = k
  · subst hx; rw [alookup_objSet_self, h]
  · exact alookup_objSet_ne m k v x hx

theorem objSet_length_of_isSome {β : Type} (m : List (Title × β)) (k : Title) (v : β)
    (h : (alookup m k).isSome) : (objSet m k v).length = m.length := by
  unfold objSet
  rw [if_pos h, List.length_map]

theorem objSet_length_of_none {β : Type} (m : List (Title × β)) (k : Title) (v : β)
    (h : alookup m k = none) : (objSet m k v).length = m.length + 1 := by
  unfold objSet
  rw [if_neg (by simp [h]), List.length_append, List.length_singleton]

/-! ### Lemmas about encoded lengths and batch packing -/

theorem encodedLength_append (s t : String) :
    encodedLength (s ++ t) = encodedLength s + encodedLength t := by
  unfold encodedLength
  rw [String.data_append, List.map_append, List.sum_append]

theorem encodedLength_empty : encodedLength "" = 0 := rfl

/-- Specification of the inner packing loop: it consumes a prefix `taken` of
the input, appends it (in order) to the articles accumulator and the
`titlesParam` accumulator, takes at most `50 - i` further titles, and checks
`encodedParamLength < 1500` before each take, so the running length without
the final taken title stayed below 1500. -/
theorem packLoop_spec (l : List Title) : ∀ (i e : Nat) (p : String) (acc : List Title),
    ∃ taken rem,
      packLoop i e p acc l = (acc.reverse ++ taken, p ++ joinPipe taken, rem) ∧
      l = taken ++ rem ∧
      i + taken.length ≤ max i 50 ∧
      (taken = [] ∨ e + encodedLength (joinPipe taken.dropLast) < 1500) := by
  induction l with
  | nil =>
    intro i e p acc
    refine ⟨[], [], ?_, rfl, by simp, Or.inl rfl⟩
    simp [packLoop, joinPipe]
  | cons t ts ih =>
    intro i e p acc
    by_cases h : i < 50 ∧ e < 1500
    · obtain ⟨taken', rem, heq, hsplit, hcount, hbound⟩ :=
        ih (i + 1) (e + encodedLength ("|" ++ t)) (p ++ "|" ++ t) (t :: acc)
      refine ⟨t :: taken', rem, ?_, by simp [hsplit], ?_, ?_⟩
      · simp only [packLoop, if_pos h, heq]
        simp [joinPipe, String.append_assoc]
      · have : max (i + 1) 50 = 50 := by omega
        rw [this] at hcount
        have : max i 50 = 50 := by omega
        rw [this]
        simp only [List.length_cons]
        omega
      · refine Or.inr ?_
        rcases hbound with hb | hb
        · subst hb
          simpa [joinPipe, encodedLength_empty] using h.2
        · cases taken' with
          | nil => simpa [joinPipe, encodedLength_empty] using h.2
          | cons t2 ts2 =>
            rw [List.dropLast_cons_of_ne_nil (by simp)]
            simp only [joinPipe]
            rw [show ("|" ++ t ++ joinPipe ((t2 :: ts2).dropLast)) =
                  (("|" ++ t) ++ joinPipe ((t2 :: ts2).dropLast)) by
                rw [String.append_assoc]]
            rw [encodedLength_append]
            omega
    · refine ⟨[], t :: ts, ?_, rfl, by simp, Or.inl rfl⟩
      simp [packLoop, if_neg h, joinPipe]

/-- How one chunk of consecutive input titles relates to the batch built
from it: the chunk's head seeds `titlesParam`, its tail becomes
`batch.articles`, at most 50 titles total, no cursor, and the encoded
length without the final title stayed below 1500 (the source checks the
budget before each add, so only the last title may push it past 1500). -/
def chunkMatches (ck : List Title) (b : Batch) : Prop :=
  ∃ a0 tl, ck = a0 :: tl ∧
    b.articles = tl ∧
    b.titlesParam = a0 ++ joinPipe tl ∧
    ck.length ≤ 50 ∧
    b.continueParam = none ∧
    (tl = [] ∨ encodedLength (a0 ++ joinPipe tl.dropLast) < 1500)

theorem packBatchesFuel_spec (fuel : Nat) :
    ∀ (input : List Title), input.length ≤ fuel →
      ∃ chunks : List (List Title),
        chunks.flatten = input ∧
        List.Forall₂ chunkMatches chunks (packBatchesFuel fuel input) := by
  induction fuel with
  | zero =>
    intro input hlen
    have : input = [] := List.eq_nil_of_length_eq_zero (Nat.le_zero.mp hlen)
    subst this
    exact ⟨[], rfl, by simp [packBatchesFuel]⟩
  | succ fuel ih =>
    intro input hlen
    cases input with
    | nil => exact ⟨[], rfl, by simp [packBatchesFuel]⟩
    | cons a0 rest =>
      obtain ⟨taken, rem, heq, hsplit, hcount, hbound⟩ :=
        packLoop_spec rest 1 (encodedLength a0) a0 []
      have hrem : rem.length ≤ fuel := by
        have h1 : rest.length = taken.length + rem.length := by
          rw [hsplit, List.length_append]
        simp only [List.length_cons] at hlen
        omega
      obtain ⟨chunks, hjoin, hall⟩ := ih rem hrem
      refine ⟨(a0 :: taken) :: chunks, ?_, ?_⟩
      · simp [hjoin, hsplit]
      · have hstep : packBatchesFuel (fuel + 1) (a0 :: rest) =
            { articles := taken, titlesParam := a0 ++ joinPipe taken,
              continueParam := none } :: packBatchesFuel fuel rem := by
          simp only [packBatchesFuel, heq, List.nil_append, List.reverse_nil]
        rw [hstep]
        refine List.Forall₂.cons ?_ hall
        refine ⟨a0, taken, rfl, rfl, rfl, ?_, rfl, ?_⟩
        · simp only [List.length_cons]
          have : max 1 50 = 50 := by omega
          rw [this] at hcount
          omega
        · rcases hbound with hb | hb
          · exact Or.inl hb
          · exact Or.inr (by rw [encodedLength_append]; omega)

/-- `packBatches` covers every input title exactly once, in order, in
chunks satisfying `chunkMatches`. -/
theorem packBatches_spec (input : List Title) :
    ∃ chunks : List (List Title),
      chunks.flatten = input ∧ List.Forall₂ chunkMatches chunks (packBatches input) :=
  packBatchesFuel_spec input.length input le_rfl

/-! ### C2: addArticles batching -/

/-- A title of 800 characters; two of them overflow a batch's encoded
budget because the source checks the budget only before adding a title. -/
def longTitle : Title := String.mk (List.replicate 800 'a')

set_option maxRecDepth 40000 in
/-- C2 counterexample: on input `[longTitle, longTitle]` `addArticles`
builds a single 2-title batch whose combined percent-encoded length is
1603, not under 1500 as the claim requires — the loop admits a title
whenever the running encoded length is still below 1500, so the final
title can push the batch past the budget. -/
theorem batch_encoded_length_overflow :
    (packBatches [longTitle, longTitle]).length = 1 ∧
    ((packBatches [longTitle, longTitle]).getD 0 emptyBatch).articles.length + 1 = 2 ∧
    encodedLength ((packBatches [longTitle, longTitle]).getD 0 emptyBatch).titlesParam = 1603 ∧
    ¬ encodedLength ((packBatches [longTitle, longTitle]).getD 0 emptyBatch).titlesParam < 1500 := by
  refine ⟨by decide, by decide, by decide, by decide⟩

/-- C2 (amended): `addArticles` partitions any non-empty input into
non-empty consecutive chunks — one batch per chunk, in order, covering
every input title exactly once — each holding at most 50 titles with no
cursor, where each batch's encoded length **excluding its final title** is
under 1500 (only the last-added title may exceed the budget); all new
batches are appended to the active rotation.  120 five-character titles
yield exactly 3 batches of sizes 50, 50, 20. -/
theorem addArticles_partition :
    (∀ input : List Title, input ≠ [] →
      ∃ chunks : List (List Title), chunks ≠ [] ∧ chunks.flatten = input ∧
        List.Forall₂ chunkMatches chunks (packBatches input) ∧
        ∀ s : LinkFetcher, (addArticlesF s input).batches = s.batches ++ packBatches input) ∧
    (packBatches (List.replicate 120 "abcde")).map (fun b => b.articles.length + 1) =
      [50, 50, 20] := by
  constructor
  · intro input hne
    obtain ⟨chunks, hflat, hall⟩ := packBatches_spec input
    refine ⟨chunks, ?_, hflat, hall, fun s => rfl⟩
    intro hc
    subst hc
    simp only [List.flatten_nil] at hflat
    exact hne hflat.symm
  · decide

/-- Witness for `addArticles_partition` at the concrete input `["x"]`. -/
theorem addArticles_partition_witness :
    ∃ chunks : List (List Title), chunks ≠ [] ∧ chunks.flatten = ["x"] ∧
      List.Forall₂ chunkMatches chunks (packBatches ["x"]) ∧
      ∀ s : LinkFetcher, (addArticlesF s ["x"]).batches = s.batches ++ packBatches ["x"] :=
  addArticles_partition.1 ["x"] (by decide)

/-! ### C3: what happens when the active rotation is empty -/

/-- C3 counterexample: with an empty active rotation and one parked batch,
`fetch()` does *not* signal "no desirable batches": it pops the parked
batch back into the rotation and issues a fetchLinks request for it. -/
theorem fetch_pops_undesirable_counterexample :
    (⟨[], 0, none, [⟨[], "X", none⟩]⟩ : LinkFetcher).batches = [] ∧
    (fetchStep ⟨[], 0, none, [⟨[], "X", none⟩]⟩ ⟨[], none⟩).1 =
      some ⟨"X", none⟩ ∧
    (fetchSelect ⟨[], 0, none, [⟨[], "X", none⟩]⟩).1.batches = [⟨[], "X", none⟩] := by
  refine ⟨rfl, by decide, by decide⟩

/-- C3 (amended): a parked batch returns to the rotation either via
diversification (`addArticles` only appends fresh batches) or directly by
`fetch()` itself — when the rotation is empty but the stack is not,
`fetch()` pops the most recently parked batch into the rotation and fetches
it.  `fetch()` signals exhaustion (empty result, no remote call) only when
rotation and stack are both empty; while the rotation is non-empty the
stack is never touched by `fetch()`. -/
theorem fetch_empty_rotation_policy :
    ∀ (s : LinkFetcher) (resp : FetchResponse),
      (s.batches = [] → s.undesirableBatchStack = [] → fetchStep s resp = (none, s, [])) ∧
      (s.batches ≠ [] → (fetchStep s resp).2.1.undesirableBatchStack = s.undesirableBatchStack) ∧
      (s.batches = [] → ∀ (b : Batch) (rest : List Batch),
        s.undesirableBatchStack = rest ++ [b] →
        (fetchStep s resp).1 =
          some { titlesParam := b.titlesParam, continueParam := b.continueParam } ∧
        (fetchSelect s).1.batches = [b] ∧
        (fetchSelect s).1.undesirableBatchStack = rest) := by
  intro s resp
  refine ⟨?_, ?_, ?_⟩
  · intro h1 h2
    simp [fetchStep, LinkFetcher.complete, h1, h2]
  · intro h
    have hc : s.complete = false := by
      simp [LinkFetcher.complete, h]
    have hsel : (fetchSelect s).1.undesirableBatchStack = s.undesirableBatchStack := by
      simp [fetchSelect, List.length_pos.mpr h]
    simp only [fetchStep, hc, Bool.false_eq_true, if_false]
    cases resp.continueParam <;> simp [hsel]
  · intro h1 b rest hstack
    have hc : s.complete = false := by
      simp [LinkFetcher.complete, h1, hstack]
    have hsel : fetchSelect s =
        ({ s with batches := [b], undesirableBatchStack := rest, batchIndex := 0 }, 0) := by
      simp [fetchSelect, h1, hstack, List.getLast?_concat, List.dropLast_concat]
    refine ⟨?_, by simp [hsel], by simp [hsel]⟩
    simp only [fetchStep, hc, Bool.false_eq_true, if_false, hsel]
    cases resp.continueParam <;> simp [List.getD]

/-- Witness for `fetch_empty_rotation_policy` at a concrete parked state. -/
theorem fetch_empty_rotation_policy_witness :
    (fetchStep ⟨[], 0, none, []⟩ ⟨[], none⟩ = (none, ⟨[], 0, none, []⟩, []) ∧
     (fetchSelect ⟨[], 0, none, [⟨[], "Y", none⟩]⟩).1.batches = [⟨[], "Y", none⟩]) := by
  refine ⟨(fetch_empty_rotation_policy ⟨[], 0, none, []⟩ ⟨[], none⟩).1 rfl rfl, ?_⟩
  exact ((fetch_empty_rotation_policy ⟨[], 0, none, [⟨[], "Y", none⟩]⟩ ⟨[], none⟩).2.2 rfl
    ⟨[], "Y", none⟩ [] rfl).2.1

/-! ### C4: synthesized empty link lists on cursor exhaustion -/

/-- C4 failing input: the synthesis loop iterates over `batch.articles`,
which `addArticles` seeds *without* the batch's first title, so a batch
built from the single title "A" synthesizes nothing — the returned link map
lacks the required `("A", [])` entry (and for a 2-title batch only the
second title gets one).  Batch removal and candidate clearing do happen. -/
theorem exhausted_batch_synthesis_gap :
    (fetchStep (addArticlesF LinkFetcher.init ["A"]) ⟨[], none⟩).2.2 = [] ∧
    alookup (fetchStep (addArticlesF LinkFetcher.init ["A"]) ⟨[], none⟩).2.2 "A" = none ∧
    (fetchStep (addArticlesF LinkFetcher.init ["A"]) ⟨[], none⟩).2.1.batches = [] ∧
    (fetchStep (addArticlesF LinkFetcher.init ["A"]) ⟨[], none⟩).2.1.lastBatchIndex = none ∧
    (fetchStep (addArticlesF LinkFetcher.init ["A", "B"]) ⟨[], none⟩).2.2 = [("B", [])] ∧
    alookup (fetchStep (addArticlesF LinkFetcher.init ["A", "B"]) ⟨[], none⟩).2.2 "A" = none := by
  refine ⟨by decide, by decide, by decide, by decide, by decide, by decide⟩

/-! ### C6: cursor storage and verbatim reuse -/

/-- When `fetch` actually issues a request, the selected index is a valid
index into the post-selection rotation. -/
theorem fetchSelect_idx_lt (s : LinkFetcher) (hc : s.complete = false) :
    (fetchSelect s).2 < (fetchSelect s).1.batches.length := by
  by_cases h : s.batches.length > 0
  · simp only [fetchSelect, if_pos h]
    exact Nat.mod_lt _ h
  · have hb : s.batches = [] := by
      cases hbs : s.batches with
      | nil => rfl
      | cons x xs => rw [hbs] at h; simp at h
    have hstack : s.undesirableBatchStack ≠ [] := by
      intro he
      simp [LinkFetcher.complete, hb, he] at hc
    obtain ⟨b, hb'⟩ := Option.isSome_iff_exists.mp (List.getLast?_isSome.mpr hstack)
    simp [fetchSelect, if_neg h, hb']

/-- C6: a returned cursor is stored verbatim on the fetched batch, which
stays at its slot in the active rotation and is recorded as the demotion
candidate; and every request `fetch` issues carries exactly the selected
batch's stored cursor — so the next fetch of that batch passes the stored
cursor back verbatim. -/
theorem cursor_stored_and_reused :
    ∀ (s : LinkFetcher) (resp : FetchResponse) (req : FetchRequest)
      (s2 : LinkFetcher) (lm : List (Title × List Title)) (c : String),
      fetchStep s resp = (some req, s2, lm) → resp.continueParam = some c →
      s2.batches.getD (fetchSelect s).2 emptyBatch =
        { (fetchSelect s).1.batches.getD (fetchSelect s).2 emptyBatch with
            continueParam := some c } ∧
      s2.lastBatchIndex = some (fetchSelect s).2 ∧
      s2.batches.length = (fetchSelect s).1.batches.length ∧
      (∀ (s3 : LinkFetcher) (resp3 : FetchResponse) (req3 : FetchRequest)
         (s4 : LinkFetcher) (lm3 : List (Title × List Title)),
        fetchStep s3 resp3 = (some req3, s4, lm3) →
        req3 = { titlesParam :=
                   ((fetchSelect s3).1.batches.getD (fetchSelect s3).2 emptyBatch).titlesParam,
                 continueParam :=
                   ((fetchSelect s3).1.batches.getD (fetchSelect s3).2 emptyBatch).continueParam }) := by
  have hreq : ∀ (s3 : LinkFetcher) (resp3 : FetchResponse) (req3 : FetchRequest)
      (s4 : LinkFetcher) (lm3 : List (Title × List Title)),
      fetchStep s3 resp3 = (some req3, s4, lm3) →
      req3 = { titlesParam :=
                 ((fetchSelect s3).1.batches.getD (fetchSelect s3).2 emptyBatch).titlesParam,
               continueParam :=
                 ((fetchSelect s3).1.batches.getD (fetchSelect s3).2 emptyBatch).continueParam } := by
    intro s3 resp3 req3 s4 lm3 hstep
    by_cases hc : s3.complete
    · simp [fetchStep, hc] at hstep
    · simp only [fetchStep, Bool.not_eq_true] at hstep hc
      rw [if_neg (by simp [hc])] at hstep
      cases hr : resp3.continueParam with
      | some c' =>
        rw [hr] at hstep
        exact (Prod.mk.injEq _ _ _ _).mp hstep |>.1 |> Option.some.inj |>.symm
      | none =>
        rw [hr] at hstep
        exact (Prod.mk.injEq _ _ _ _).mp hstep |>.1 |> Option.some.inj |>.symm
  intro s resp req s2 lm c hstep hresp
  by_cases hc : s.complete
  · simp [fetchStep, hc] at hstep
  · have hcf : s.complete = false := by simpa using hc
    have hlt := fetchSelect_idx_lt s hcf
    simp only [fetchStep] at hstep
    rw [if_neg (by simp [hcf])] at hstep
    rw [hresp] at hstep
    obtain ⟨h1, h2⟩ := Prod.mk.injEq .. |>.mp hstep
    obtain ⟨h2, h3⟩ := Prod.mk.injEq .. |>.mp h2
    refine ⟨?_, ?_, ?_, hreq⟩
    · rw [← h2]
      simp [List.getD, List.getElem?_set_self hlt]
    · rw [← h2]
    · rw [← h2]
      simp [List.length_set]

/-- Witness for `cursor_stored_and_reused`: a single-batch fetcher fetched
with a response carrying cursor "CUR" stores it on the batch; a second
fetch then issues a request carrying "CUR". -/
theorem cursor_stored_and_reused_witness :
    (fetchStep (addArticlesF LinkFetcher.init ["A"]) ⟨[("A", ["B"])], some "CUR"⟩).2.1.batches.getD
        (fetchSelect (addArticlesF LinkFetcher.init ["A"])).2 emptyBatch =
      { (fetchSelect (addArticlesF LinkFetcher.init ["A"])).1.batches.getD
          (fetchSelect (addArticlesF LinkFetcher.init ["A"])).2 emptyBatch with
          continueParam := some "CUR" } ∧
    (fetchStep (addArticlesF LinkFetcher.init ["A"]) ⟨[("A", ["B"])], some "CUR"⟩).2.1.lastBatchIndex =
      some (fetchSelect (addArticlesF LinkFetcher.init ["A"])).2 := by
  have h := cursor_stored_and_reused (addArticlesF LinkFetcher.init ["A"])
    ⟨[("A", ["B"])], some "CUR"⟩
    ⟨"A", none⟩
    (fetchStep (addArticlesF LinkFetcher.init ["A"]) ⟨[("A", ["B"])], some "CUR"⟩).2.1
    (fetchStep (addArticlesF LinkFetcher.init ["A"]) ⟨[("A", ["B"])], some "CUR"⟩).2.2
    "CUR" (by decide) rfl
  exact ⟨h.1, h.2.1⟩

/-! ### C5: the low-yield demotion policy -/

theorem foldl_insertChild_preserve (p : Title) (cs : List Title)
    (acc : ArticleTree × List Title) :
    (cs.foldl (fun a c => insertChild a p c) acc).1.linkFetcher = acc.1.linkFetcher ∧
    (cs.foldl (fun a c => insertChild a p c) acc).1.consecutiveUndesirableBatches =
      acc.1.consecutiveUndesirableBatches := by
  induction cs generalizing acc with
  | nil => exact ⟨rfl, rfl⟩
  | cons c cs ih =>
    rw [List.foldl_cons]
    exact ih (insertChild acc p c)

theorem processParent_preserve (acc : ArticleTree × List Title) (p : Title)
    (children : List Title) :
    (processParent acc p children).1.linkFetcher = acc.1.linkFetcher ∧
    (processParent acc p children).1.consecutiveUndesirableBatches =
      acc.1.consecutiveUndesirableBatches := by
  simp only [processParent]
  constructor
  · rw [(foldl_insertChild_preserve p _ _).1]
    split <;> rfl
  · rw [(foldl_insertChild_preserve p _ _).2]
    split <;> rfl

theorem exploreUpdate_preserve (t : ArticleTree) (lm : List (Title × List Title)) :
    (exploreUpdate t lm).1.linkFetcher = t.linkFetcher ∧
    (exploreUpdate t lm).1.consecutiveUndesirableBatches =
      t.consecutiveUndesirableBatches := by
  unfold exploreUpdate
  suffices h : ∀ (acc : ArticleTree × List Title),
      (lm.foldl (fun a pc => processParent a pc.1 pc.2) acc).1.linkFetcher =
        acc.1.linkFetcher ∧
      (lm.foldl (fun a pc => processParent a pc.1 pc.2) acc).1.consecutiveUndesirableBatches =
        acc.1.consecutiveUndesirableBatches from h (t, [])
  induction lm with
  | nil => exact fun acc => ⟨rfl, rfl⟩
  | cons pc lm ih =>
    intro acc
    rw [List.foldl_cons]
    obtain ⟨h1, h2⟩ := ih (processParent acc pc.1 pc.2)
    obtain ⟨h3, h4⟩ := processParent_preserve acc pc.1 pc.2
    exact ⟨h1.trans h3, h2.trans h4⟩

/-- The yield policy in isolation: counter evolution and which demotions run. -/
theorem yieldPolicy_facts (u : ArticleTree) (n : Nat) :
    (n < 10 → u.consecutiveUndesirableBatches + 1 < 4 →
       (yieldPolicy u n).consecutiveUndesirableBatches =
         u.consecutiveUndesirableBatches + 1 ∧
       (yieldPolicy u n).linkFetcher = markLastBatchUndesirable u.linkFetcher) ∧
    (n < 10 → 4 ≤ u.consecutiveUndesirableBatches + 1 →
       (yieldPolicy u n).consecutiveUndesirableBatches = 0 ∧
       (yieldPolicy u n).linkFetcher =
         markAllBatchesUndesirable (markLastBatchUndesirable u.linkFetcher) ∧
       (yieldPolicy u n).linkFetcher.batches = []) ∧
    (10 ≤ n → (yieldPolicy u n).consecutiveUndesirableBatches = 0) := by
  refine ⟨?_, ?_, ?_⟩
  · intro hlow hlt
    simp only [yieldPolicy, if_pos hlow]
    rw [if_neg (by omega)]
    exact ⟨rfl, rfl⟩
  · intro hlow hge
    simp only [yieldPolicy, if_pos hlow]
    rw [if_pos (by omega)]
    exact ⟨rfl, rfl, rfl⟩
  · intro hhigh
    simp only [yieldPolicy, if_neg (by omega : ¬ n < 10)]

theorem exploreStep_ok_eq (t : ArticleTree) (resp : FetchResponse)
    (hcomp : (if t.linkFetcher.noDesirableBatches then t.diversify else t).linkFetcher.complete
      = false) :
    exploreStep t resp =
      Except.ok (exploreCore
        (if t.linkFetcher.noDesirableBatches then t.diversify else t) resp) := by
  simp only [exploreStep, hcomp, Bool.false_eq_true, if_false]

/-- `exploreCore` spelled out without the let bindings. -/
theorem exploreCore_eq (t : ArticleTree) (resp : FetchResponse) :
    exploreCore t resp =
      ({ yieldPolicy
           (exploreUpdate { t with linkFetcher := (fetchStep t.linkFetcher resp).2.1 }
             (fetchStep t.linkFetcher resp).2.2).1
           (exploreUpdate { t with linkFetcher := (fetchStep t.linkFetcher resp).2.1 }
             (fetchStep t.linkFetcher resp).2.2).2.length with
         size := (yieldPolicy
           (exploreUpdate { t with linkFetcher := (fetchStep t.linkFetcher resp).2.1 }
             (fetchStep t.linkFetcher resp).2.2).1
           (exploreUpdate { t with linkFetcher := (fetchStep t.linkFetcher resp).2.1 }
             (fetchStep t.linkFetcher resp).2.2).2.length).size +
           (exploreUpdate { t with linkFetcher := (fetchStep t.linkFetcher resp).2.1 }
             (fetchStep t.linkFetcher resp).2.2).2.length,
         fringeSize := (yieldPolicy
           (exploreUpdate { t with linkFetcher := (fetchStep t.linkFetcher resp).2.1 }
             (fetchStep t.linkFetcher resp).2.2).1
           (exploreUpdate { t with linkFetcher := (fetchStep t.linkFetcher resp).2.1 }
             (fetchStep t.linkFetcher resp).2.2).2.length).fringeSize +
           (exploreUpdate { t with linkFetcher := (fetchStep t.linkFetcher resp).2.1 }
             (fetchStep t.linkFetcher resp).2.2).2.length },
       (exploreUpdate { t with linkFetcher := (fetchStep t.linkFetcher resp).2.1 }
         (fetchStep t.linkFetcher resp).2.2).2) := rfl

/-- The per-step content of the yield policy, phrased on `exploreStep`. -/
theorem exploreStep_yield_facts (t : ArticleTree) (resp : FetchResponse)
    (t2 : ArticleTree) (nts : List Title)
    (h : exploreStep t resp = Except.ok (t2, nts)) :
    (nts.length < 10 → t.consecutiveUndesirableBatches + 1 < 4 →
       t2.consecutiveUndesirableBatches = t.consecutiveUndesirableBatches + 1 ∧
       t2.linkFetcher = markLastBatchUndesirable
         (fetchStep (if t.linkFetcher.noDesirableBatches then t.diversify else t).linkFetcher
           resp).2.1) ∧
    (nts.length < 10 → 4 ≤ t.consecutiveUndesirableBatches + 1 →
       t2.consecutiveUndesirableBatches = 0 ∧
       t2.linkFetcher = markAllBatchesUndesirable (markLastBatchUndesirable
         (fetchStep (if t.linkFetcher.noDesirableBatches then t.diversify else t).linkFetcher
           resp).2.1) ∧
       t2.linkFetcher.batches = []) ∧
    (10 ≤ nts.length → t2.consecutiveUndesirableBatches = 0) := by
  by_cases hcomp :
      (if t.linkFetcher.noDesirableBatches then t.diversify else t).linkFetcher.complete
  · rw [exploreStep] at h
    simp only [hcomp, if_true] at h
    exact Except.noConfusion h
  · rw [exploreStep_ok_eq t resp (by simpa using hcomp)] at h
    set td := if t.linkFetcher.noDesirableBatches then t.diversify else t with htd
    rw [exploreCore_eq] at h
    set fr := fetchStep td.linkFetcher resp with hfr
    set up := exploreUpdate { td with linkFetcher := fr.2.1 } fr.2.2 with hup
    simp only [Except.ok.injEq, Prod.mk.injEq] at h
    obtain ⟨ht2, hnts⟩ := h
    have htdc : td.consecutiveUndesirableBatches = t.consecutiveUndesirableBatches := by
      rw [htd]
      by_cases hd : t.linkFetcher.noDesirableBatches = true <;>
        simp [hd, ArticleTree.diversify]
    have hcnt : up.1.consecutiveUndesirableBatches = t.consecutiveUndesirableBatches := by
      rw [hup, (exploreUpdate_preserve _ _).2]
      exact htdc
    have hfet : up.1.linkFetcher = fr.2.1 := by
      rw [hup, (exploreUpdate_preserve _ _).1]
    have hc2 : t2.consecutiveUndesirableBatches =
        (yieldPolicy up.1 up.2.length).consecutiveUndesirableBatches := by
      rw [← ht2]
    have hf2 : t2.linkFetcher = (yieldPolicy up.1 up.2.length).linkFetcher := by
      rw [← ht2]
    have hlen : nts.length = up.2.length := by rw [← hnts]
    obtain ⟨y1, y2, y3⟩ := yieldPolicy_facts up.1 up.2.length
    refine ⟨?_, ?_, ?_⟩
    · intro hlow hlt
      rw [hlen] at hlow
      rw [← hcnt] at hlt
      obtain ⟨a, b⟩ := y1 hlow hlt
      rw [hcnt] at a
      rw [hfet] at b
      exact ⟨hc2.trans a, hf2.trans b⟩
    · intro hlow hge
      rw [hlen] at hlow
      rw [← hcnt] at hge
      obtain ⟨a, b, c⟩ := y2 hlow hge
      rw [hfet] at b
      exact ⟨hc2.trans a, hf2.trans b, by rw [hf2]; exact c⟩
    · intro hhigh
      rw [hlen] at hhigh
      exact hc2.trans (y3 hhigh)

/-- C5: each `explore` step inserting fewer than 10 new titles demotes the
last-fetched batch and bumps the consecutive-low-yield counter; when the
counter reaches 4 the whole rotation is parked and the counter resets; any
step inserting 10 or more resets the counter — hence 4 consecutive
low-yield steps from a zero counter leave the active rotation empty and
the counter at 0. -/
theorem low_yield_policy :
    (∀ (t : ArticleTree) (resp : FetchResponse) (t2 : ArticleTree) (nts : List Title),
      exploreStep t resp = Except.ok (t2, nts) →
      (nts.length < 10 → t.consecutiveUndesirableBatches + 1 < 4 →
         t2.consecutiveUndesirableBatches = t.consecutiveUndesirableBatches + 1 ∧
         t2.linkFetcher = markLastBatchUndesirable
           (fetchStep (if t.linkFetcher.noDesirableBatches then t.diversify else t).linkFetcher
             resp).2.1) ∧
      (nts.length < 10 → 4 ≤ t.consecutiveUndesirableBatches + 1 →
         t2.consecutiveUndesirableBatches = 0 ∧
         t2.linkFetcher = markAllBatchesUndesirable (markLastBatchUndesirable
           (fetchStep (if t.linkFetcher.noDesirableBatches then t.diversify else t).linkFetcher
             resp).2.1) ∧
         t2.linkFetcher.batches = []) ∧
      (10 ≤ nts.length → t2.consecutiveUndesirableBatches = 0)) ∧
    (∀ (t : ArticleTree) (r1 r2 r3 r4 : FetchResponse) (t1 t2 t3 t4 : ArticleTree)
       (n1 n2 n3 n4 : List Title),
      t.consecutiveUndesirableBatches = 0 →
      exploreStep t r1 = Except.ok (t1, n1) → n1.length < 10 →
      exploreStep t1 r2 = Except.ok (t2, n2) → n2.length < 10 →
      exploreStep t2 r3 = Except.ok (t3, n3) → n3.length < 10 →
      exploreStep t3 r4 = Except.ok (t4, n4) → n4.length < 10 →
      t4.linkFetcher.batches = [] ∧ t4.consecutiveUndesirableBatches = 0) := by
  refine ⟨fun t resp t2 nts h => exploreStep_yield_facts t resp t2 nts h, ?_⟩
  intro t r1 r2 r3 r4 t1 t2 t3 t4 n1 n2 n3 n4 h0 e1 l1 e2 l2 e3 l3 e4 l4
  have f1 := exploreStep_yield_facts t r1 t1 n1 e1
  have c1 : t1.consecutiveUndesirableBatches = 1 := by
    have := (f1.1 l1 (by omega)).1
    omega
  have f2 := exploreStep_yield_facts t1 r2 t2 n2 e2
  have c2 : t2.consecutiveUndesirableBatches = 2 := by
    have := (f2.1 l2 (by omega)).1
    omega
  have f3 := exploreStep_yield_facts t2 r3 t3 n3 e3
  have c3 : t3.consecutiveUndesirableBatches = 3 := by
    have := (f3.1 l3 (by omega)).1
    omega
  have f4 := exploreStep_yield_facts t3 r4 t4 n4 e4
  obtain ⟨hc, _, hb⟩ := f4.2.1 l4 (by omega)
  exact ⟨hb, hc⟩

/-- The successful-step extractor used by the `low_yield_policy` witness. -/
def stepOut (t : ArticleTree) (r : FetchResponse) : ArticleTree :=
  match exploreStep t r with
  | Except.ok p => p.1
  | Except.error _ => t

/-- The cursor-only response driving the witness scenario. -/
def lowYieldResp : FetchResponse := ⟨[], some "c"⟩

/-- Witness for `low_yield_policy`: four zero-yield steps on a fresh
single-batch tree empty the rotation and reset the counter. -/
theorem low_yield_policy_witness :
    (stepOut (stepOut (stepOut (stepOut (ArticleTree.init "A") lowYieldResp) lowYieldResp)
        lowYieldResp) lowYieldResp).linkFetcher.batches = [] ∧
    (stepOut (stepOut (stepOut (stepOut (ArticleTree.init "A") lowYieldResp) lowYieldResp)
        lowYieldResp) lowYieldResp).consecutiveUndesirableBatches = 0 :=
  low_yield_policy.2 (ArticleTree.init "A") lowYieldResp lowYieldResp lowYieldResp lowYieldResp
    (stepOut (ArticleTree.init "A") lowYieldResp)
    (stepOut (stepOut (ArticleTree.init "A") lowYieldResp) lowYieldResp)
    (stepOut (stepOut (stepOut (ArticleTree.init "A") lowYieldResp) lowYieldResp) lowYieldResp)
    (stepOut (stepOut (stepOut (stepOut (ArticleTree.init "A") lowYieldResp) lowYieldResp)
        lowYieldResp) lowYieldResp)
    [] [] [] [] rfl (by rfl) (by decide) (by rfl) (by decide) (by rfl) (by decide)
    (by rfl) (by decide)

/-! ### C1: collision choice within one expansion step -/

/-- Forward tree for the collision counterexample: root "S" with children
"a" and "m"; "b" below "m". -/
def cexFwd : ArticleTree :=
  { treeObj := [("S", rootSentinel), ("a", "S"), ("m", "S"), ("b", "m")],
    fringe := [], fringeSize := 0,
    depthMap := [("S", 0), ("a", 1), ("m", 1), ("b", 2)],
    linkFetcher := LinkFetcher.init, toExplore := [], size := 4,
    layerSizes := [1, 2, 1], consecutiveUndesirableBatches := 0 }

/-- Backward tree for the collision counterexample: root "E" with children
"a" and "n"; "b" below "n". -/
def cexBwd : ArticleTree :=
  { treeObj := [("E", rootSentinel), ("a", "E"), ("n", "E"), ("b", "n")],
    fringe := [], fringeSize := 0,
    depthMap := [("E", 0), ("a", 1), ("n", 1), ("b", 2)],
    linkFetcher := LinkFetcher.init, toExplore := [], size := 4,
    layerSizes := [1, 2, 1], consecutiveUndesirableBatches := 0 }

set_option maxRecDepth 10000 in
/-- C1 fails on the code: among the step's colliding titles "a" (total
path length 2) and "b" (total path length 4), `wikigameSolve` picks "b" —
`bestCollisionDistance` starts at `Number.MAX_VALUE` and is never
reassigned, so every colliding title passes the comparison and the *last*
one wins, not the minimizer. -/
theorem collision_pick_ignores_distance :
    chooseCollision cexFwd cexBwd cexBwd ["a", "b"] = some "b" ∧
    cexBwd.containsPage "a" = true ∧
    cexBwd.containsPage "b" = true ∧
    ((cexFwd.pathToRoot "a").getD []).length + ((cexBwd.pathToRoot "a").getD []).length = 2 ∧
    ((cexFwd.pathToRoot "b").getD []).length + ((cexBwd.pathToRoot "b").getD []).length = 4 := by
  refine ⟨by decide, by decide, by decide, by decide, by decide⟩

/-! ### C9: path reconstruction -/

/-- Forward tree of the Hydrogen→Penguin scenario. -/
def hydroFwd : ArticleTree :=
  { treeObj := [("Hydrogen", rootSentinel), ("Algae", "Hydrogen")],
    fringe := [], fringeSize := 0,
    depthMap := [("Hydrogen", 0), ("Algae", 1)],
    linkFetcher := LinkFetcher.init, toExplore := [], size := 2,
    layerSizes := [1, 1], consecutiveUndesirableBatches := 0 }

/-- Backward tree of the Hydrogen→Penguin scenario. -/
def penguinBwd : ArticleTree :=
  { treeObj := [("Penguin", rootSentinel), ("Marine biology", "Penguin"),
      ("Algae", "Marine biology")],
    fringe := [], fringeSize := 0,
    depthMap := [("Penguin", 0), ("Marine biology", 1), ("Algae", 2)],
    linkFetcher := LinkFetcher.init, toExplore := [], size := 3,
    layerSizes := [1, 1, 1], consecutiveUndesirableBatches := 0 }

/-- C9: when a collision `c` is chosen the search returns
`reverse(forward.pathToRoot(c)) ++ [c] ++ backward.pathToRoot(c)`; in the
Hydrogen→Penguin scenario with "Algae" the unique collision, the result is
`["Hydrogen", "Algae", "Marine biology", "Penguin"]`. -/
theorem path_reconstruction :
    (∀ (fwd bwd : ArticleTree) (c : Title) (pf pb : List Title),
      fwd.pathToRoot c = some pf → bwd.pathToRoot c = some pb →
      reconstructPath fwd bwd c = some (pf.reverse ++ [c] ++ pb)) ∧
    reconstructPath hydroFwd penguinBwd "Algae" =
      some ["Hydrogen", "Algae", "Marine biology", "Penguin"] := by
  constructor
  · intro fwd bwd c pf pb hf hb
    simp [reconstructPath, hf, hb]
  · decide

/-- Witness for `path_reconstruction` at the scenario trees. -/
theorem path_reconstruction_witness :
    reconstructPath hydroFwd penguinBwd "Algae" =
      some ((["Hydrogen"] : List Title).reverse ++ ["Algae"] ++ ["Marine biology", "Penguin"]) :=
  path_reconstruction.1 hydroFwd penguinBwd "Algae" ["Hydrogen"] ["Marine biology", "Penguin"]
    (by decide) (by decide)

/-! ### C7/C8: the exploration-tree invariant -/

/-- The invariant `explore` maintains on the parent map and depth map:
the root maps to the sentinel, the sentinel itself is not a key, the two
maps have the same keys, a title mapping to the sentinel has depth 0,
any other title's depth is its parent's depth plus one, and every depth is
bounded by the number of tree entries (which makes the `pathToRoot` walk
terminate within `treeObj.length` steps). -/
structure TreeInv (root : Title) (t : ArticleTree) : Prop where
  root_mem : alookup t.treeObj root = some rootSentinel
  sentinel_not_mem : alookup t.treeObj rootSentinel = none
  keys_sync : ∀ x, (alookup t.treeObj x).isSome ↔ (alookup t.depthMap x).isSome
  depth_root : ∀ x, alookup t.treeObj x = some rootSentinel → alookup t.depthMap x = some 0
  depth_step : ∀ x p, alookup t.treeObj x = some p → p ≠ rootSentinel →
    ∃ dp, alookup t.depthMap p = some dp ∧ alookup t.depthMap x = some (dp + 1)
  depth_bound : ∀ x d, alookup t.depthMap x = some d → d < t.treeObj.length

/-- The invariant only involves the two maps. -/
theorem TreeInv_congr (root : Title) {t t' : ArticleTree}
    (ht : t'.treeObj = t.treeObj) (hd : t'.depthMap = t.depthMap)
    (h : TreeInv root t) : TreeInv root t' := by
  refine ⟨?_, ?_, ?_, ?_, ?_, ?_⟩ <;> simp only [ht, hd]
  · exact h.root_mem
  · exact h.sentinel_not_mem
  · exact h.keys_sync
  · exact h.depth_root
  · exact h.depth_step
  · exact h.depth_bound

/-- A fresh tree satisfies the invariant whenever the root title is not the
sentinel string itself. -/
theorem TreeInv_init (root : Title) (h : root ≠ rootSentinel) :
    TreeInv root (ArticleTree.init root) := by
  refine ⟨?_, ?_, ?_, ?_, ?_, ?_⟩
  · simp [ArticleTree.init, alookup]
  · simp only [ArticleTree.init, alookup]
    rw [if_neg (fun he : rootSentinel = root => h he.symm)]
  · intro x
    by_cases hx : x = root <;> simp [ArticleTree.init, alookup, hx]
  · intro x hx
    by_cases hxr : x = root
    · simp [ArticleTree.init, alookup, hxr]
    · simp [ArticleTree.init, alookup, hxr] at hx
  · intro x p hx hp
    by_cases hxr : x = root
    · subst hxr
      simp [ArticleTree.init, alookup] at hx
      exact absurd hx.symm hp
    · simp [ArticleTree.init, alookup, hxr] at hx
  · intro x d hx
    by_cases hxr : x = root
    · subst hxr
      simp [ArticleTree.init, alookup] at hx
      simp [ArticleTree.init, ← hx]
    · simp [ArticleTree.init, alookup, hxr] at hx

/-- Inserting one child under a tree member `p` (with a fresh child, or a
re-insertion of a duplicate child of the same parent with the same depth,
which overwrites with identical values): pointwise effect on both maps and
preservation of the invariant. -/
theorem insertChild_invariant (root : Title) (acc : ArticleTree × List Title) (p c : Title)
    (dp : Nat) (hinv : TreeInv root acc.1)
    (hp : alookup acc.1.depthMap p = some dp)
    (hc : alookup acc.1.treeObj c = none ∨
      (alookup acc.1.treeObj c = some p ∧ alookup acc.1.depthMap c = some (dp + 1)))
    (hcs : c ≠ rootSentinel) :
    c ≠ p ∧
    (∀ x, alookup (insertChild acc p c).1.treeObj x =
       if x = c then some p else alookup acc.1.treeObj x) ∧
    (∀ x, alookup (insertChild acc p c).1.depthMap x =
       if x = c then some (dp + 1) else alookup acc.1.depthMap x) ∧
    TreeInv root (insertChild acc p c).1 := by
  have hpT : (alookup acc.1.treeObj p).isSome := by
    rw [hinv.keys_sync p, hp]
    rfl
  have hcp : c ≠ p := by
    intro he
    subst he
    rcases hc with h1 | ⟨h1, h2⟩
    · rw [h1] at hpT
      exact Bool.noConfusion hpT
    · have := Option.some.inj (hp.symm.trans h2)
      omega
  have hpns : p ≠ rootSentinel := by
    intro he
    subst he
    rw [hinv.sentinel_not_mem] at hpT
    exact Bool.noConfusion hpT
  have htreeObj : (insertChild acc p c).1.treeObj = objSet acc.1.treeObj c p := rfl
  have hdepthEq : (insertChild acc p c).1.depthMap = objSet acc.1.depthMap c (dp + 1) := by
    simp [insertChild, hp]
  have hT : ∀ x, alookup (insertChild acc p c).1.treeObj x =
      if x = c then some p else alookup acc.1.treeObj x := by
    intro x
    rw [htreeObj]
    by_cases hx : x = c
    · subst hx
      rw [if_pos rfl, alookup_objSet_self]
    · rw [if_neg hx, alookup_objSet_ne _ _ _ _ hx]
  have hD : ∀ x, alookup (insertChild acc p c).1.depthMap x =
      if x = c then some (dp + 1) else alookup acc.1.depthMap x := by
    intro x
    rw [hdepthEq]
    by_cases hx : x = c
    · subst hx
      rw [if_pos rfl, alookup_objSet_self]
    · rw [if_neg hx, alookup_objSet_ne _ _ _ _ hx]
  have hcroot : c ≠ root := by
    intro he
    subst he
    rcases hc with h1 | ⟨h1, _⟩
    · rw [hinv.root_mem] at h1
      exact Option.noConfusion h1
    · exact hpns (Option.some.inj (hinv.root_mem.symm.trans h1)).symm
  have hlen1 : acc.1.treeObj.length ≤ (insertChild acc p c).1.treeObj.length := by
    rw [htreeObj]
    rcases hc with h1 | ⟨h1, _⟩
    · rw [objSet_length_of_none _ _ _ h1]
      omega
    · rw [objSet_length_of_isSome _ _ _ (by rw [h1]; rfl)]
  refine ⟨hcp, hT, hD, ?_, ?_, ?_, ?_, ?_, ?_⟩
  · rw [hT root, if_neg (fun he => hcroot he.symm)]
    exact hinv.root_mem
  · rw [hT rootSentinel, if_neg (fun he => hcs he.symm)]
    exact hinv.sentinel_not_mem
  · intro x
    rw [hT x, hD x]
    by_cases hx : x = c
    · simp [hx]
    · rw [if_neg hx, if_neg hx]
      exact hinv.keys_sync x
  · intro x hx
    rw [hD x]
    rw [hT x] at hx
    by_cases hxc : x = c
    · rw [if_pos hxc] at hx
      exact absurd (Option.some.inj hx) hpns
    · rw [if_neg hxc] at hx
      rw [if_neg hxc]
      exact hinv.depth_root x hx
  · intro x q hx hq
    rw [hT x] at hx
    by_cases hxc : x = c
    · rw [if_pos hxc] at hx
      have hqp : p = q := Option.some.inj hx
      subst hqp
      refine ⟨dp, ?_, ?_⟩
      · rw [hD p, if_neg (fun he => hcp he.symm)]
        exact hp
      · rw [hD x, if_pos hxc]
    · rw [if_neg hxc] at hx
      obtain ⟨dq, hq1, hq2⟩ := hinv.depth_step x q hx hq
      refine ⟨dq, ?_, ?_⟩
      · rw [hD q]
        by_cases hqc : q = c
        · subst hqc
          rcases hc with h1 | ⟨h1, h2⟩
          · have : (alookup acc.1.depthMap q).isSome := by rw [hq1]; rfl
            rw [← hinv.keys_sync q, h1] at this
            exact Bool.noConfusion this
          · rw [if_pos rfl, ← hq1, h2]
        · rw [if_neg hqc]
          exact hq1
      · rw [hD x, if_neg hxc]
        exact hq2
  · intro x d hx
    rw [hD x] at hx
    by_cases hxc : x = c
    · rw [if_pos hxc] at hx
      have hd : d = dp + 1 := (Option.some.inj hx).symm
      subst hd
      rcases hc with h1 | ⟨h1, h2⟩
      · have hb := hinv.depth_bound p dp hp
        rw [htreeObj, objSet_length_of_none _ _ _ h1]
        omega
      · have hb := hinv.depth_bound c (dp + 1) h2
        rw [htreeObj, objSet_length_of_isSome _ _ _ (by rw [h1]; rfl)]
        exact hb
    · rw [if_neg hxc] at hx
      have hb := hinv.depth_bound x d hx
      omega

/-- Folding `insertChild` over a child list whose members are not the
sentinel and are each either absent or already inserted under `p` with the
right depth: the invariant holds afterwards and existing entries of both
maps are untouched. -/
theorem foldl_insertChild_invariant (root p : Title) (dp : Nat) (cs : List Title) :
    ∀ (acc : ArticleTree × List Title),
    TreeInv root acc.1 →
    alookup acc.1.depthMap p = some dp →
    (∀ c ∈ cs, c ≠ rootSentinel) →
    (∀ c ∈ cs, alookup acc.1.treeObj c = none ∨
      (alookup acc.1.treeObj c = some p ∧ alookup acc.1.depthMap c = some (dp + 1))) →
    TreeInv root (cs.foldl (fun a c => insertChild a p c) acc).1 ∧
    (∀ x v, alookup acc.1.treeObj x = some v →
      alookup (cs.foldl (fun a c => insertChild a p c) acc).1.treeObj x = some v) ∧
    (∀ x d, alookup acc.1.depthMap x = some d →
      alookup (cs.foldl (fun a c => insertChild a p c) acc).1.depthMap x = some d) := by
  induction cs with
  | nil =>
    intro acc hinv hp _ _
    exact ⟨hinv, fun x v h => h, fun x d h => h⟩
  | cons c cs ih =>
    intro acc hinv hp hcs hc
    obtain ⟨hcp, hT, hD, hinv1⟩ :=
      insertChild_invariant root acc p c dp hinv hp (hc c (by simp)) (hcs c (by simp))
    rw [List.foldl_cons]
    have hp1 : alookup (insertChild acc p c).1.depthMap p = some dp := by
      rw [hD p, if_neg (fun he => hcp he.symm)]
      exact hp
    have hc1 : ∀ c' ∈ cs, alookup (insertChild acc p c).1.treeObj c' = none ∨
        (alookup (insertChild acc p c).1.treeObj c' = some p ∧
         alookup (insertChild acc p c).1.depthMap c' = some (dp + 1)) := by
      intro c' hmem
      by_cases hcc : c' = c
      · subst hcc
        refine Or.inr ⟨?_, ?_⟩
        · rw [hT c', if_pos rfl]
        · rw [hD c', if_pos rfl]
      · rw [hT c', if_neg hcc, hD c', if_neg hcc]
        exact hc c' (by simp [hmem])
    obtain ⟨hinv2, hTpre, hDpre⟩ :=
      ih (insertChild acc p c) hinv1 hp1 (fun c' hm => hcs c' (by simp [hm])) hc1
    refine ⟨hinv2, ?_, ?_⟩
    · intro x v hx
      refine hTpre x v ?_
      rw [hT x]
      by_cases hxc : x = c
      · subst hxc
        rcases hc x (by simp) with h1 | ⟨h1, _⟩
        · rw [h1] at hx
          exact Option.noConfusion hx
        · rw [if_pos rfl, ← hx, h1]
      · rw [if_neg hxc]
        exact hx
    · intro x d hx
      refine hDpre x d ?_
      rw [hD x]
      by_cases hxc : x = c
      · subst hxc
        rcases hc x (by simp) with h1 | ⟨h1, h2⟩
        · have : (alookup acc.1.depthMap x).isSome := by rw [hx]; rfl
          rw [← hinv.keys_sync x, h1] at this
          exact Bool.noConfusion this
        · rw [if_pos rfl, ← hx, h2]
      · rw [if_neg hxc]
        exact hx

/-- `processParent` preserves the invariant and existing map entries when
the parent lies in the tree and no child is the sentinel string. -/
theorem processParent_invariant (root : Title) (acc : ArticleTree × List Title)
    (p : Title) (children : List Title)
    (hinv : TreeInv root acc.1)
    (hp : (alookup acc.1.treeObj p).isSome)
    (hcs : ∀ c ∈ children, c ≠ rootSentinel) :
    TreeInv root (processParent acc p children).1 ∧
    (∀ x v, alookup acc.1.treeObj x = some v →
      alookup (processParent acc p children).1.treeObj x = some v) ∧
    (∀ x d, alookup acc.1.depthMap x = some d →
      alookup (processParent acc p children).1.depthMap x = some d) := by
  simp only [processParent]
  set t1 := if acc.1.fringe.contains p = true
    then { acc.1 with fringe := acc.1.fringe.erase p, fringeSize := acc.1.fringeSize - 1 }
    else acc.1 with ht1
  have htT : t1.treeObj = acc.1.treeObj := by
    rw [ht1]
    split <;> rfl
  have htD : t1.depthMap = acc.1.depthMap := by
    rw [ht1]
    split <;> rfl
  have hinv1 : TreeInv root t1 := TreeInv_congr root htT htD hinv
  obtain ⟨dp, hdp⟩ := Option.isSome_iff_exists.mp ((hinv.keys_sync p).mp hp)
  have hdp1 : alookup t1.depthMap p = some dp := by rw [htD]; exact hdp
  have hfiltered : ∀ c ∈ children.filter (fun c => !(t1.containsPage c)),
      alookup t1.treeObj c = none ∨
      (alookup t1.treeObj c = some p ∧ alookup t1.depthMap c = some (dp + 1)) := by
    intro c hmem
    refine Or.inl ?_
    have hns := (List.mem_filter.mp hmem).2
    simp only [ArticleTree.containsPage, Bool.not_eq_true'] at hns
    cases h2 : alookup t1.treeObj c with
    | none => rfl
    | some w =>
      rw [h2] at hns
      exact Bool.noConfusion hns
  have hcs1 : ∀ c ∈ children.filter (fun c => !(t1.containsPage c)), c ≠ rootSentinel :=
    fun c hmem => hcs c (List.mem_filter.mp hmem).1
  obtain ⟨hinv2, hTpre, hDpre⟩ :=
    foldl_insertChild_invariant root p dp (children.filter (fun c => !(t1.containsPage c)))
      (t1, acc.2) hinv1 hdp1 hcs1 hfiltered
  refine ⟨hinv2, ?_, ?_⟩
  · intro x v hx
    refine hTpre x v ?_
    rw [htT]
    exact hx
  · intro x d hx
    refine hDpre x d ?_
    rw [htD]
    exact hx

/-- `exploreUpdate` preserves the invariant and existing map entries for
well-formed link maps (every parent key is a tree member, no child is the
sentinel string). -/
theorem exploreUpdate_invariant (root : Title) (t : ArticleTree)
    (lm : List (Title × List Title))
    (hinv : TreeInv root t)
    (hwf : ∀ pc ∈ lm, (alookup t.treeObj pc.1).isSome = true ∧
      ∀ c ∈ pc.2, c ≠ rootSentinel) :
    TreeInv root (exploreUpdate t lm).1 ∧
    (∀ x v, alookup t.treeObj x = some v →
      alookup (exploreUpdate t lm).1.treeObj x = some v) ∧
    (∀ x d, alookup t.depthMap x = some d →
      alookup (exploreUpdate t lm).1.depthMap x = some d) := by
  unfold exploreUpdate
  suffices h : ∀ (acc : ArticleTree × List Title),
      TreeInv root acc.1 →
      (∀ pc ∈ lm, (alookup acc.1.treeObj pc.1).isSome = true ∧
        ∀ c ∈ pc.2, c ≠ rootSentinel) →
      TreeInv root (lm.foldl (fun a pc => processParent a pc.1 pc.2) acc).1 ∧
      (∀ x v, alookup acc.1.treeObj x = some v →
        alookup (lm.foldl (fun a pc => processParent a pc.1 pc.2) acc).1.treeObj x = some v) ∧
      (∀ x d, alookup acc.1.depthMap x = some d →
        alookup (lm.foldl (fun a pc => processParent a pc.1 pc.2) acc).1.depthMap x = some d) by
    exact h (t, []) hinv hwf
  clear hinv hwf
  induction lm with
  | nil =>
    intro acc hinv _
    exact ⟨hinv, fun x v h => h, fun x d h => h⟩
  | cons pc lm ih =>
    intro acc hinv hwf
    obtain ⟨hinv1, hTpre, hDpre⟩ :=
      processParent_invariant root acc pc.1 pc.2 hinv
        (by rw [(hwf pc (by simp)).1])
        (hwf pc (by simp)).2
    rw [List.foldl_cons]
    have hwf1 : ∀ pc' ∈ lm,
        (alookup (processParent acc pc.1 pc.2).1.treeObj pc'.1).isSome = true ∧
        ∀ c ∈ pc'.2, c ≠ rootSentinel := by
      intro pc' hmem
      refine ⟨?_, (hwf pc' (by simp [hmem])).2⟩
      obtain ⟨v, hv⟩ := Option.isSome_iff_exists.mp (hwf pc' (by simp [hmem])).1
      rw [hTpre pc'.1 v hv]
      rfl
    obtain ⟨hinv2, hTpre2, hDpre2⟩ := ih (processParent acc pc.1 pc.2) hinv1 hwf1
    exact ⟨hinv2, fun x v h => hTpre2 x v (hTpre x v h),
      fun x d h => hDpre2 x d (hDpre x d h)⟩

/-- C7: tree membership is monotonic and write-once — a fresh tree
satisfies the invariant, and for every well-formed link map (parents are
tree members, no child equals the sentinel string) `exploreUpdate`
preserves the invariant, never changes the parent or depth recorded for an
already-inserted title, and in the resulting tree every non-root entry
satisfies `depth[t] = depth[parent[t]] + 1`. -/
theorem tree_write_once :
    (∀ root : Title, root ≠ rootSentinel → TreeInv root (ArticleTree.init root)) ∧
    (∀ (root : Title) (t : ArticleTree) (lm : List (Title × List Title)),
      TreeInv root t →
      (∀ pc ∈ lm, (alookup t.treeObj pc.1).isSome = true ∧
        ∀ c ∈ pc.2, c ≠ rootSentinel) →
      TreeInv root (exploreUpdate t lm).1 ∧
      (∀ x v, alookup t.treeObj x = some v →
        alookup (exploreUpdate t lm).1.treeObj x = some v) ∧
      (∀ x d, alookup t.depthMap x = some d →
        alookup (exploreUpdate t lm).1.depthMap x = some d) ∧
      (∀ x p, alookup (exploreUpdate t lm).1.treeObj x = some p → p ≠ rootSentinel →
        ∃ dp, alookup (exploreUpdate t lm).1.depthMap p = some dp ∧
          alookup (exploreUpdate t lm).1.depthMap x = some (dp + 1))) := by
  refine ⟨TreeInv_init, ?_⟩
  intro root t lm hinv hwf
  obtain ⟨h1, h2, h3⟩ := exploreUpdate_invariant root t lm hinv hwf
  exact ⟨h1, h2, h3, h1.depth_step⟩

/-- Witness for `tree_write_once`: after one update inserting "B" under
the root "A", the root's parent entry is untouched. -/
theorem tree_write_once_witness :
    alookup ((exploreUpdate (ArticleTree.init "A") [("A", ["B"])]).1.treeObj) "A" =
      some rootSentinel := by
  have h := tree_write_once.2 "A" (ArticleTree.init "A") [("A", ["B"])]
    (tree_write_once.1 "A" (by decide))
    (by
      intro pc hmem
      simp only [List.mem_singleton] at hmem
      subst hmem
      refine ⟨by decide, ?_⟩
      intro c hc
      simp only [List.mem_singleton] at hc
      subst hc
      decide)
  exact h.2.1 "A" rootSentinel (by decide)

/-- The parent-pointer walk, under the invariant: starting from a title of
depth `d` with fuel at least `d`, the loop returns the ancestor chain
nearest-parent-first, of length exactly `d`, each element the parent of the
one before, with the last element mapping to the root sentinel. -/
theorem pathToRootLoop_spec (root : Title) (t : ArticleTree) (hinv : TreeInv root t) :
    ∀ (d : Nat) (x : Title) (fuel : Nat),
      alookup t.depthMap x = some d → d ≤ fuel →
      (pathToRootLoop t.treeObj fuel x).length = d ∧
      List.Chain' (fun a b => alookup t.treeObj a = some b)
        (x :: pathToRootLoop t.treeObj fuel x) ∧
      alookup t.treeObj
        ((x :: pathToRootLoop t.treeObj fuel x).getLast (List.cons_ne_nil x _)) =
        some rootSentinel := by
  intro d
  induction d with
  | zero =>
    intro x fuel hx _
    have hT : (alookup t.treeObj x).isSome := by
      rw [hinv.keys_sync x, hx]
      rfl
    obtain ⟨p, hp⟩ := Option.isSome_iff_exists.mp hT
    have hps : p = rootSentinel := by
      by_contra hne
      obtain ⟨dp, _, hx2⟩ := hinv.depth_step x p hp hne
      have := Option.some.inj (hx.symm.trans hx2)
      omega
    subst hps
    have hloop : pathToRootLoop t.treeObj fuel x = [] := by
      cases fuel with
      | zero => rfl
      | succ k => simp [pathToRootLoop, hp]
    rw [hloop]
    refine ⟨rfl, by simp, by simpa using hp⟩
  | succ d ih =>
    intro x fuel hx hfuel
    have hT : (alookup t.treeObj x).isSome := by
      rw [hinv.keys_sync x, hx]
      rfl
    obtain ⟨p, hp⟩ := Option.isSome_iff_exists.mp hT
    have hpns : p ≠ rootSentinel := by
      intro he
      subst he
      have h0 := hinv.depth_root x hp
      have := Option.some.inj (hx.symm.trans h0)
      omega
    obtain ⟨dp, hdp, hx2⟩ := hinv.depth_step x p hp hpns
    have hdpd : dp = d := by
      have := Option.some.inj (hx.symm.trans hx2)
      omega
    subst hdpd
    cases fuel with
    | zero => omega
    | succ k =>
      have hloop : pathToRootLoop t.treeObj (k + 1) x =
          p :: pathToRootLoop t.treeObj k p := by
        simp [pathToRootLoop, hp, hpns]
      obtain ⟨hlen, hchain, hlast⟩ := ih p k hdp (by omega)
      rw [hloop]
      refine ⟨by simp [hlen], ?_, ?_⟩
      · rw [List.chain'_cons]
        exact ⟨hp, hchain⟩
      · rw [List.getLast_cons (List.cons_ne_nil p _)]
        exact hlast

/-- C8: under the tree invariant, `pathToRoot(root)` is the empty sequence;
for every present title the walk returns its ancestor chain
nearest-parent-first up to and excluding the root sentinel, with length
equal to the title's depth; and for every absent title `pathToRoot` fails
(InvalidTitle, modelled as `none`). -/
theorem pathToRoot_spec :
    ∀ (root : Title) (t : ArticleTree), TreeInv root t →
      t.pathToRoot root = some [] ∧
      (∀ x, t.containsPage x = true →
        ∃ l d, t.pathToRoot x = some l ∧ alookup t.depthMap x = some d ∧
          l.length = d ∧
          List.Chain' (fun a b => alookup t.treeObj a = some b) (x :: l) ∧
          alookup t.treeObj ((x :: l).getLast (List.cons_ne_nil x l)) =
            some rootSentinel) ∧
      (∀ x, t.containsPage x = false → t.pathToRoot x = none) := by
  intro root t hinv
  refine ⟨?_, ?_, ?_⟩
  · have hc : t.containsPage root = true := by
      simp [ArticleTree.containsPage, hinv.root_mem]
    have hd0 : alookup t.depthMap root = some 0 := hinv.depth_root root hinv.root_mem
    obtain ⟨hlen, _, _⟩ :=
      pathToRootLoop_spec root t hinv 0 root t.treeObj.length hd0 (by omega)
    simp only [ArticleTree.pathToRoot, hc, if_true]
    rw [List.length_eq_zero.mp hlen]
  · intro x hc
    have hT : (alookup t.treeObj x).isSome := hc
    obtain ⟨d, hd⟩ := Option.isSome_iff_exists.mp ((hinv.keys_sync x).mp hT)
    have hb := hinv.depth_bound x d hd
    obtain ⟨hlen, hchain, hlast⟩ :=
      pathToRootLoop_spec root t hinv d x t.treeObj.length hd (by omega)
    exact ⟨pathToRootLoop t.treeObj t.treeObj.length x, d,
      by simp [ArticleTree.pathToRoot, hc], hd, hlen, hchain, hlast⟩
  · intro x hc
    simp [ArticleTree.pathToRoot, hc]

/-- Witness for `pathToRoot_spec`: the fresh tree rooted at "A". -/
theorem pathToRoot_spec_witness :
    (ArticleTree.init "A").pathToRoot "A" = some [] :=
  (pathToRoot_spec "A" (ArticleTree.init "A") (TreeInv_init "A" (by decide))).1
